import Mathlib

/-!
Verification of the dual-channel job progress reconciler of the Xea frontend.

The embedding follows `frontend/src/App.tsx` (the component with the
stream/poll reconciliation, `handleValidationComplete`, `getClaimStatuses`
and `handleReset`), the request/response types of `frontend/src/api.ts`,
and the attestation panel of `frontend/src/components/EvidencePanel.tsx`.

React semantics are embedded as a step function over an explicit state:
component state (`useState` fields) lives in `AppState`; each external
event (a stream message, a timer tick, the resolution of an in-flight
network request, a user action) is one `Event`; effect re-runs driven by
dependency changes (`useEffect` dependency arrays) are applied at the end
of each step.  In-flight network requests are counted so that a response
may resolve at any later step, matching the fact that a pending promise's
continuation still runs after the issuing effect was cleaned up.
-/

namespace Xea

/-- Backend job status (api.ts: `'queued' | 'running' | 'completed' | 'failed'`). -/
inductive BackendStatus
  | queued
  | running
  | completed
  | failed
deriving DecidableEq

/-- Stage of the App component (App.tsx: `type AppStage`). -/
inductive AppStage
  | input
  | validating
  | aggregating
  | complete
deriving DecidableEq

/-- Per-miner verdict payload (api.ts `MinerResponse`).  `rationale` stands in
for the remaining payload fields (evidence links, scores, embedding), which the
reconciliation logic never inspects but which are part of "identical payload". -/
structure MinerResponse where
  miner_id : String
  claim_id : String
  verdict : String
  rationale : String
deriving DecidableEq

/-- Job counters (api.ts `JobProgress`). -/
structure JobProgress where
  claims_total : Nat
  claims_validated : Nat
  miners_contacted : Nat
  miners_responded : Nat
deriving DecidableEq

/-- An extracted claim (api.ts `Claim`); the App logic reads only `id`. -/
structure Claim where
  id : String
  text : String
deriving DecidableEq

/-- Result of `POST /ingest` (api.ts `IngestResponse`). -/
structure IngestResponse where
  proposal_hash : String
  claims : List Claim
deriving DecidableEq

/-- Per-claim aggregation entry of an evidence bundle (api.ts
`ClaimAggregation`); `getClaimStatuses` reads only `id`. -/
structure ClaimAggregation where
  id : String
deriving DecidableEq

/-- Aggregated evidence bundle (api.ts `EvidenceBundle`); the App logic reads
only `claims`. -/
structure EvidenceBundle where
  claims : List ClaimAggregation
deriving DecidableEq

/-- Result of `GET /status/{job_id}` (api.ts `StatusResponse`). -/
structure StatusResponse where
  status : BackendStatus
  progress : JobProgress
  partial_results : List MinerResponse
  ready_for_aggregation : Bool
deriving DecidableEq

/-- First-match lookup in an association list (a JS `Map.get`). -/
def lookupS {α : Type} : List (String × α) → String → Option α
  | [], _ => none
  | (k, v) :: xs, c => if k = c then some v else lookupS xs c

/-- One step of the `polledResponses.reduce` grouping in App.tsx:
`if (!acc[r.claim_id]) acc[r.claim_id] = []; acc[r.claim_id].push(r)`. -/
def upsertGroup (acc : List (String × List MinerResponse)) (r : MinerResponse) :
    List (String × List MinerResponse) :=
  if acc.any (fun e => e.1 = r.claim_id) then
    acc.map (fun e => if e.1 = r.claim_id then (e.1, e.2 ++ [r]) else e)
  else
    acc ++ [(r.claim_id, [r])]

/-- The grouping of the polled snapshot by claim id (App.tsx, the
`polledResponses.reduce` fed to `new Map(Object.entries(...))`). -/
def groupByClaim (rs : List MinerResponse) : List (String × List MinerResponse) :=
  rs.foldl upsertGroup []

/-- Modelled from the spec: the per-claim insert of the stream channel.  The
`useJobStream` hook is not among the repository's files (only its call site in
App.tsx is), so its response map follows spec section 4.4 step 1: "Maintain a
mapping from claim identifier to a set of MinerResponse keyed by miner
identifier; inserting an existing key is a no-op replace with identical
content".  This inserts `r` into one claim's response list keyed by miner id. -/
def insertResp (l : List MinerResponse) (r : MinerResponse) : List MinerResponse :=
  if l.any (fun x => x.miner_id = r.miner_id) then
    l.map (fun x => if x.miner_id = r.miner_id then r else x)
  else
    l ++ [r]

/-- Modelled from the spec: the stream channel's claim-to-responses map update
on a `miner_response` message (`useJobStream` is not among the repository's
files); keyed insert per spec section 4.4 step 1. -/
def insertStream (m : List (String × List MinerResponse)) (r : MinerResponse) :
    List (String × List MinerResponse) :=
  if m.any (fun e => e.1 = r.claim_id) then
    m.map (fun e => if e.1 = r.claim_id then (e.1, insertResp e.2 r) else e)
  else
    m ++ [(r.claim_id, [r])]

/-- State owned by the `useJobStream` hook: connectivity, last stream `status`
message, last stream `progress`, and the per-claim response map. -/
structure StreamState where
  connected : Bool
  status : Option BackendStatus
  progress : Option JobProgress
  minerResponses : List (String × List MinerResponse)
deriving DecidableEq

/-- A freshly mounted stream hook: disconnected, nothing received. -/
def initStream : StreamState :=
  { connected := false, status := none, progress := none, minerResponses := [] }

/-- The App component's state: the eight `useState` fields of App.tsx, the
hook state, and bookkeeping for in-flight requests and issued calls.
`pendingValidates`, `pendingPolls` and `pendingAggs` count network requests
issued but not yet resolved (their continuations run whenever the response
arrives, even after the issuing effect was cleaned up); `aggregateCalls`
counts every `api.aggregate` call ever issued; `warnings` counts poll errors
reported via `console.error`. -/
structure AppState where
  stage : AppStage
  proposal : Option IngestResponse
  jobId : Option String
  evidenceBundle : Option EvidenceBundle
  ipfsCid : Option String
  error : Option String
  polledProgress : Option JobProgress
  polledResponses : List MinerResponse
  stream : StreamState
  pendingValidates : Nat
  pendingPolls : Nat
  pendingAggs : Nat
  aggregateCalls : Nat
  warnings : Nat
deriving DecidableEq

/-- The initial App state (`useState` initialisers of App.tsx). -/
def initState : AppState :=
  { stage := AppStage.input, proposal := none, jobId := none,
    evidenceBundle := none, ipfsCid := none, error := none,
    polledProgress := none, polledResponses := [],
    stream := initStream, pendingValidates := 0, pendingPolls := 0,
    pendingAggs := 0, aggregateCalls := 0, warnings := 0 }

/-- The argument of `useJobStream(stage === 'validating' ? jobId : null)`:
the job the stream hook is subscribed to, if any. -/
def hookJob (s : AppState) : Option String :=
  if s.stage = AppStage.validating then s.jobId else none

/-- The guard of the poll effect of App.tsx:
`if (stage !== 'validating' || !jobId || stream.connected) return;` —
true exactly when the poll interval is installed. -/
def pollActive (s : AppState) : Bool :=
  (s.stage == AppStage.validating) && s.jobId.isSome && !s.stream.connected

/-- The dependency array `[stage, jobId, stream.connected]` of the poll
effect: the effect re-runs exactly when this changes. -/
def pollDeps (s : AppState) : AppStage × Option String × Bool :=
  (s.stage, s.jobId, s.stream.connected)

/-- Issue one `api.getStatus` request (it resolves in a later step). -/
def issuePoll (s : AppState) : AppState :=
  { s with pendingPolls := s.pendingPolls + 1 }

/-- `handleValidationComplete` of App.tsx: bail out when `jobId` is null,
otherwise set the stage to `aggregating` and issue the `api.aggregate` call
(its response resolves in a later step).  Note the only guard inside the
handler is the `jobId` null check. -/
def handleValidationComplete (s : AppState) : AppState :=
  match s.jobId with
  | none => s
  | some _ =>
      { s with stage := AppStage.aggregating,
               pendingAggs := s.pendingAggs + 1,
               aggregateCalls := s.aggregateCalls + 1 }

/-- External events driving the App component. -/
inductive Event
  | ingestOk (p : IngestResponse)
  | validateOk (j : String)
  | validateFail (msg : String)
  | streamConnect
  | streamDisconnect
  | streamMiner (r : MinerResponse)
  | streamStatus (st : BackendStatus) (prog : JobProgress)
  | pollTick
  | pollOk (st : StatusResponse)
  | pollFail
  | aggOk (b : EvidenceBundle) (cid : Option String)
  | aggFail (msg : String)
  | reset
deriving DecidableEq

/-- The state update of each event, before effect re-runs.

* `ingestOk` — `handleIngestComplete` with `autoValidate`: store the proposal,
  clear the error, issue `api.validate`.
* `validateOk`/`validateFail` — the continuation of that `api.validate` call.
* `streamConnect`/`streamDisconnect`/`streamMiner`/`streamStatus` — stream
  events; they reach the component only while the hook is subscribed
  (`hookJob` set) and, for messages, connected.  A `status` message triggers
  the completion effect (`useEffect` on `[stream.status]`):
  `if (stream.status === 'completed' && stage === 'validating')`.
* `pollTick` — the `setInterval(poll, 2000)` callback: issues `api.getStatus`
  while the effect is installed.
* `pollOk`/`pollFail` — the continuation of an in-flight `api.getStatus`:
  store progress and partial results, then
  `if (status.status === 'completed') handleValidationComplete()`;
  on error only `console.error` (counted in `warnings`).
* `aggOk`/`aggFail` — the continuation of an in-flight `api.aggregate`
  (the `try`/`catch` of `handleValidationComplete`).
* `reset` — `handleReset`: every `useState` field back to its initialiser;
  in-flight requests are not aborted. -/
def rawStep : Event → AppState → AppState
  | .ingestOk p, s =>
      if s.stage = AppStage.input then
        { s with proposal := some p, error := none,
                 pendingValidates := s.pendingValidates + 1 }
      else s
  | .validateOk j, s =>
      if s.pendingValidates > 0 then
        { s with pendingValidates := s.pendingValidates - 1,
                 jobId := some j, stage := AppStage.validating }
      else s
  | .validateFail msg, s =>
      if s.pendingValidates > 0 then
        { s with pendingValidates := s.pendingValidates - 1, error := some msg }
      else s
  | .streamConnect, s =>
      if (hookJob s).isSome then
        { s with stream := { s.stream with connected := true } }
      else s
  | .streamDisconnect, s =>
      if (hookJob s).isSome && s.stream.connected then
        { s with stream := { s.stream with connected := false } }
      else s
  | .streamMiner r, s =>
      if (hookJob s).isSome && s.stream.connected then
        { s with stream :=
            { s.stream with minerResponses := insertStream s.stream.minerResponses r } }
      else s
  | .streamStatus st prog, s =>
      if (hookJob s).isSome && s.stream.connected then
        let s1 := { s with stream := { s.stream with status := some st, progress := some prog } }
        if st = BackendStatus.completed ∧ s.stream.status ≠ some BackendStatus.completed ∧
            s1.stage = AppStage.validating then
          handleValidationComplete s1
        else s1
      else s
  | .pollTick, s => if pollActive s then issuePoll s else s
  | .pollOk st, s =>
      if s.pendingPolls > 0 then
        let s1 := { s with pendingPolls := s.pendingPolls - 1,
                           polledProgress := some st.progress,
                           polledResponses := st.partial_results }
        if st.status = BackendStatus.completed then handleValidationComplete s1 else s1
      else s
  | .pollFail, s =>
      if s.pendingPolls > 0 then
        { s with pendingPolls := s.pendingPolls - 1, warnings := s.warnings + 1 }
      else s
  | .aggOk b cid, s =>
      if s.pendingAggs > 0 then
        { s with pendingAggs := s.pendingAggs - 1,
                 evidenceBundle := some b, ipfsCid := cid, stage := AppStage.complete }
      else s
  | .aggFail msg, s =>
      if s.pendingAggs > 0 then
        { s with pendingAggs := s.pendingAggs - 1,
                 error := some msg, stage := AppStage.validating }
      else s
  | .reset, s =>
      { initState with stream := s.stream,
                       pendingValidates := s.pendingValidates,
                       pendingPolls := s.pendingPolls,
                       pendingAggs := s.pendingAggs,
                       aggregateCalls := s.aggregateCalls,
                       warnings := s.warnings }

/-- One full step: the event's state update, then the effect re-runs.  When
the stream hook's argument changes the hook is unmounted/remounted, so its
state resets (a fresh hook starts disconnected and empty).  When the poll
effect's dependency array changes and its guard now passes, the effect body
runs: `poll(); // Initial poll` — one immediate `api.getStatus` before the
interval starts. -/
def step (e : Event) (s : AppState) : AppState :=
  let t0 := rawStep e s
  let t1 := if hookJob t0 ≠ hookJob s then { t0 with stream := initStream } else t0
  if pollDeps t1 ≠ pollDeps s ∧ pollActive t1 then issuePoll t1 else t1

/-- Run a sequence of events from the initial state. -/
def runTrace (es : List Event) : AppState :=
  es.foldl (fun s e => step e s) initState

/-- The `minerResponses` view of App.tsx:
`stream.connected ? stream.minerResponses : <grouped polledResponses>`. -/
def minerResponsesView (s : AppState) : List (String × List MinerResponse) :=
  if s.stream.connected then s.stream.minerResponses else groupByClaim s.polledResponses

/-- Derived per-claim status values. -/
inductive ClaimStatus
  | pending
  | validating
  | completed
deriving DecidableEq

/-- Whether the evidence bundle contains an aggregation entry for a claim id
(App.tsx: `evidenceBundle && evidenceBundle.claims.find(c => c.id === claim.id)`). -/
def bundleHasClaim (b : Option EvidenceBundle) (cid : String) : Bool :=
  match b with
  | none => false
  | some bundle => bundle.claims.any (fun c => c.id = cid)

/-- `getClaimStatuses` of App.tsx: one status per ingested claim. -/
def getClaimStatuses (s : AppState) : List (String × ClaimStatus) :=
  match s.proposal with
  | none => []
  | some p =>
      p.claims.map (fun c =>
        let responses := (lookupS (minerResponsesView s) c.id).getD []
        if s.stage = AppStage.complete ∨ bundleHasClaim s.evidenceBundle c.id = true then
          (c.id, ClaimStatus.completed)
        else if responses.length > 0 then
          (c.id, ClaimStatus.validating)
        else
          (c.id, ClaimStatus.pending))

/-- The derivation rule as the specification words it: "`completed` if the
job's aggregated evidence bundle already contains this claim OR job stage is
`completed`; `validating` if at least one response exists for the claim; else
`pending`". -/
def specClaimStatus (s : AppState) (cid : String) : ClaimStatus :=
  if bundleHasClaim s.evidenceBundle cid = true ∨ s.stage = AppStage.complete then
    ClaimStatus.completed
  else if ((lookupS (minerResponsesView s) cid).getD []).length ≥ 1 then
    ClaimStatus.validating
  else
    ClaimStatus.pending

/-- The reconciled view a claim compares: the per-claim response map the App
renders plus the derived per-claim statuses. -/
def reconciledView (s : AppState) :
    List (String × List MinerResponse) × List (String × ClaimStatus) :=
  (minerResponsesView s, getClaimStatuses s)

/-- Number of responses for miner `m` in one claim's response list. -/
def countMiner (l : List MinerResponse) (m : String) : Nat :=
  (l.filter (fun x => x.miner_id = m)).length

/-- Number of entries for miner `m` under claim `c` across the whole view
(counting every entry of every bucket keyed `c`). -/
def dupCount (v : List (String × List MinerResponse)) (c m : String) : Nat :=
  (v.map (fun e => if e.1 = c then countMiner e.2 m else 0)).sum

/-- One claim's response list has at most one entry per miner id. -/
def minersNodup : List MinerResponse → Bool
  | [] => true
  | x :: xs => !(xs.any (fun y => y.miner_id = x.miner_id)) && minersNodup xs

/-- The claim keys of a response map are pairwise distinct. -/
def keysNodup : List (String × List MinerResponse) → Bool
  | [] => true
  | e :: es => !(es.any (fun x => x.1 = e.1)) && keysNodup es

/-- Well-formedness of the stream response map: distinct claim keys, and
per-claim distinct miner keys (what repeated keyed inserts maintain). -/
def streamWF (m : List (String × List MinerResponse)) : Bool :=
  keysNodup m && m.all (fun e => minersNodup e.2)

/-- Result of `POST /attest` (api.ts `AttestResponse`); the panel logic reads
`ipfs_cid`, and renders `signature`/`signer`. -/
structure AttestResponse where
  signature : String
  signer : String
  ipfs_cid : Option String
deriving DecidableEq

/-- Component state of `EvidencePanel.tsx`: its `useState` fields plus
bookkeeping: `pendingAttests` counts in-flight `api.attest` requests,
`attestCalls` every call issued, `attestSuccesses` every success stored. -/
structure PanelState where
  attestation : Option AttestResponse
  attesting : Bool
  error : Option String
  ipfsCid : Option String
  pendingAttests : Nat
  attestCalls : Nat
  attestSuccesses : Nat
deriving DecidableEq

/-- A freshly mounted EvidencePanel (attestation none, not attesting). -/
def panelInit : PanelState :=
  { attestation := none, attesting := false, error := none, ipfsCid := none,
    pendingAttests := 0, attestCalls := 0, attestSuccesses := 0 }

/-- Events of the attestation panel: a user click on the attest button, and
the resolution of an in-flight `api.attest` request. -/
inductive PanelEvent
  | click
  | resolveOk (r : AttestResponse)
  | resolveFail (msg : String)
deriving DecidableEq

/-- `EvidencePanel.tsx`: a click reaches `handleAttest` only while the button
is enabled (`disabled={attesting || !!attestation}`); the handler sets
`attesting`, clears the error and issues `api.attest`.  On resolution the
`try`/`catch`/`finally` stores the attestation or the error and clears
`attesting`. -/
def panelStep : PanelEvent → PanelState → PanelState
  | .click, s =>
      if s.attesting || s.attestation.isSome then s
      else
        { s with attesting := true, error := none,
                 pendingAttests := s.pendingAttests + 1,
                 attestCalls := s.attestCalls + 1 }
  | .resolveOk r, s =>
      if s.pendingAttests > 0 then
        { s with attestation := some r, ipfsCid := r.ipfs_cid, attesting := false,
                 pendingAttests := s.pendingAttests - 1,
                 attestSuccesses := s.attestSuccesses + 1 }
      else s
  | .resolveFail msg, s =>
      if s.pendingAttests > 0 then
        { s with error := some msg, attesting := false,
                 pendingAttests := s.pendingAttests - 1 }
      else s

/-- Run a sequence of panel events from the freshly mounted panel. -/
def runPanel (es : List PanelEvent) : PanelState :=
  es.foldl (fun s e => panelStep e s) panelInit

/-- Invariant of the attestation panel: at most one in-flight attest request,
at most one stored success, `attesting` tracks the in-flight request, and a
stored attestation implies no request is in flight any more. -/
def panelInv (s : PanelState) : Prop :=
  s.pendingAttests ≤ 1 ∧ s.attestSuccesses ≤ 1 ∧
  (s.attesting = true ↔ s.pendingAttests = 1) ∧
  (s.attestation.isSome = true → s.pendingAttests = 0) ∧
  (s.attestation.isSome = true ∨ s.attestSuccesses = 0)

/-- Concrete inputs for traces and witnesses. -/
def p1 : IngestResponse :=
  { proposal_hash := "h1", claims := [{ id := "c1", text := "t1" }] }

/-- A sample miner response for claim `c1` from miner `m1`. -/
def r1 : MinerResponse :=
  { miner_id := "m1", claim_id := "c1", verdict := "verified", rationale := "ok" }

/-- A sample progress snapshot. -/
def prog1 : JobProgress :=
  { claims_total := 1, claims_validated := 0, miners_contacted := 5, miners_responded := 1 }

/-- A poll result with the job still running and `r1` among the partial results. -/
def stRun : StatusResponse :=
  { status := BackendStatus.running, progress := prog1,
    partial_results := [r1], ready_for_aggregation := false }

/-- A poll result reporting the job completed, with `r1` among the partial
results. -/
def stDone : StatusResponse :=
  { status := BackendStatus.completed, progress := prog1,
    partial_results := [r1], ready_for_aggregation := true }

/-- An evidence bundle whose aggregation entries do not cover claim `c1`. -/
def emptyBundle : EvidenceBundle := { claims := [] }

/-- A validating state with the stream connected and two `getStatus` requests
in flight (witness state for the merge theorem). -/
def c2s : AppState :=
  { initState with stage := AppStage.validating, jobId := some "j1",
                   stream := { initStream with connected := true },
                   pendingPolls := 2 }

/-- A validating state with the stream connected (witness state for the
fallback-activation theorem). -/
def c7s : AppState :=
  { initState with stage := AppStage.validating, jobId := some "j1",
                   stream := { initStream with connected := true } }

/-- A validating, disconnected state with one `getStatus` in flight (witness
state for the poll-error theorem). -/
def c8s : AppState :=
  { initState with stage := AppStage.validating, jobId := some "j1",
                   pendingPolls := 1 }

/-- An aggregating state with one `aggregate` call in flight (witness state
for the aggregate-failure theorem). -/
def c9s : AppState :=
  { initState with stage := AppStage.aggregating, jobId := some "j1",
                   pendingAggs := 1 }

/-- A sample attestation response. -/
def a1 : AttestResponse :=
  { signature := "sig1", signer := "signer1", ipfs_cid := some "cid1" }

/-- C1.  The claim says the aggregate operation is invoked at most once per
job even when two `status=completed` signals arrive in the same tick window
(one via the stream completion effect, one via a poll result).  The code
violates it: `handleValidationComplete` guards only on `jobId`, and the poll
continuation calls it without checking the stage, so after the stream
completion already issued `api.aggregate` (call count 1) the resolution of a
`getStatus` request that was in flight issues it a second time (call count 2).
This theorem evaluates the model on that event sequence. -/
theorem c1_double_aggregate_eval :
    (runTrace [Event.ingestOk p1, Event.validateOk "j1", Event.streamConnect,
      Event.streamStatus BackendStatus.completed prog1]).aggregateCalls = 1 ∧
    (runTrace [Event.ingestOk p1, Event.validateOk "j1", Event.streamConnect,
      Event.streamStatus BackendStatus.completed prog1,
      Event.pollOk stDone]).aggregateCalls = 2 := by
  decide

/-- C5.  The claim says a claim's derived status never regresses from
`completed` within a job before a reset.  The code violates it: after the job
reached stage `complete` (claim `c1` reported `completed`), a stale in-flight
poll result reporting `status=completed` re-enters `handleValidationComplete`,
which moves the stage back to `aggregating`; with an evidence bundle that has
no aggregation entry for `c1`, the derived status of `c1` falls back to
`validating`.  This theorem evaluates the model on that event sequence. -/
theorem c5_status_regression_eval :
    lookupS (getClaimStatuses (runTrace [Event.ingestOk p1, Event.validateOk "j1",
      Event.pollTick, Event.pollOk stDone, Event.aggOk emptyBundle none])) "c1" =
      some ClaimStatus.completed ∧
    lookupS (getClaimStatuses (runTrace [Event.ingestOk p1, Event.validateOk "j1",
      Event.pollTick, Event.pollOk stDone, Event.aggOk emptyBundle none,
      Event.pollOk stDone])) "c1" = some ClaimStatus.validating := by
  decide

/-- C10.  The claim says that after a reset issued while validating, any
late-arriving poll result for the old job is ignored and produces no state
change.  The code violates it: the poll continuation stores
`status.progress` and `status.partial_results` unconditionally, before its
only (`jobId`) guard, so a `getStatus` request that was in flight across the
reset still mutates `polledProgress` and `polledResponses` when it resolves.
This theorem evaluates the model on that event sequence. -/
theorem c10_late_poll_after_reset_eval :
    (runTrace [Event.ingestOk p1, Event.validateOk "j1", Event.reset]).polledProgress
        = none ∧
    (runTrace [Event.ingestOk p1, Event.validateOk "j1", Event.reset]).polledResponses
        = [] ∧
    (runTrace [Event.ingestOk p1, Event.validateOk "j1", Event.reset,
      Event.pollOk stRun]).polledProgress = some prog1 ∧
    (runTrace [Event.ingestOk p1, Event.validateOk "j1", Event.reset,
      Event.pollOk stRun]).polledResponses = [r1] := by
  decide

/-- C3 counterexample.  The claim says a miner response delivered by exactly
one channel always appears in the reconciled view, in particular a response
seen only via polling while the stream is connected.  At this concrete input
a `getStatus` request issued before the stream connected resolves afterwards
with response `r1`; `r1` was delivered only by the poll channel, yet the view
(taken exclusively from the stream map while connected) does not contain it. -/
theorem c3_poll_only_response_missing :
    (runTrace [Event.ingestOk p1, Event.validateOk "j1", Event.streamConnect,
      Event.pollOk stRun]).polledResponses = [r1] ∧
    (runTrace [Event.ingestOk p1, Event.validateOk "j1", Event.streamConnect,
      Event.pollOk stRun]).stream.connected = true ∧
    lookupS (minerResponsesView (runTrace [Event.ingestOk p1, Event.validateOk "j1",
      Event.streamConnect, Event.pollOk stRun])) "c1" = none := by
  decide

/-- First-match lookup over a list of `(id, f id)` rows finds `f c.id` for any
claim `c` of the list. -/
theorem lookupS_map_row {β : Type} (f : String → β) (cs : List Claim) (c : Claim)
    (hc : c ∈ cs) :
    lookupS (cs.map (fun x => (x.id, f x.id))) c.id = some (f c.id) := by
  induction cs with
  | nil => cases hc
  | cons x xs ih =>
    rcases List.mem_cons.mp hc with h | h
    · subst h
      simp [lookupS]
    · by_cases hx : x.id = c.id
      · simp [lookupS, hx]
      · simp only [List.map_cons, lookupS, if_neg hx]
        exact ih h

/-- C4.  For every ingested claim, the derived per-claim status computed by
`getClaimStatuses` equals the specification's derivation rule: `completed` if
the evidence bundle already contains the claim or the stage is complete,
otherwise `validating` if at least one miner response exists for the claim in
the view, otherwise `pending`. -/
theorem c4_claim_status_rule (s : AppState) (p : IngestResponse) (c : Claim)
    (hp : s.proposal = some p) (hc : c ∈ p.claims) :
    lookupS (getClaimStatuses s) c.id = some (specClaimStatus s c.id) := by
  have hrow : ∀ x : Claim,
      (let responses := (lookupS (minerResponsesView s) x.id).getD []
       if s.stage = AppStage.complete ∨ bundleHasClaim s.evidenceBundle x.id = true then
         (x.id, ClaimStatus.completed)
       else if responses.length > 0 then
         (x.id, ClaimStatus.validating)
       else
         (x.id, ClaimStatus.pending)) = (x.id, specClaimStatus s x.id) := by
    intro x
    unfold specClaimStatus
    by_cases h1 : bundleHasClaim s.evidenceBundle x.id = true ∨ s.stage = AppStage.complete
    · rw [if_pos (Or.symm h1), if_pos h1]
    · rw [if_neg (fun h => h1 (Or.symm h)), if_neg h1]
      by_cases h2 : ((lookupS (minerResponsesView s) x.id).getD []).length > 0
      · have h2' : ((lookupS (minerResponsesView s) x.id).getD []).length ≥ 1 := h2
        rw [if_pos h2, if_pos h2']
      · have h2' : ¬((lookupS (minerResponsesView s) x.id).getD []).length ≥ 1 := h2
        rw [if_neg h2, if_neg h2']
  have hmap : getClaimStatuses s = p.claims.map (fun x => (x.id, specClaimStatus s x.id)) := by
    simp only [getClaimStatuses, hp]
    exact List.map_congr_left (fun a _ => hrow a)
  rw [hmap]
  exact lookupS_map_row (specClaimStatus s) p.claims c hc

/-- Witness for C4 at a concrete reachable state. -/
theorem c4_claim_status_rule_witness :
    (runTrace [Event.ingestOk p1, Event.validateOk "j1"]).proposal = some p1 ∧
    Claim.mk "c1" "t1" ∈ p1.claims ∧
    lookupS (getClaimStatuses (runTrace [Event.ingestOk p1, Event.validateOk "j1"])) "c1" =
      some (specClaimStatus (runTrace [Event.ingestOk p1, Event.validateOk "j1"]) "c1") :=
  ⟨by decide, by decide,
    c4_claim_status_rule (runTrace [Event.ingestOk p1, Event.validateOk "j1"]) p1
      (Claim.mk "c1" "t1") (by decide) (by decide)⟩

/-- The freshly mounted panel satisfies the panel invariant. -/
theorem panelInv_init : panelInv panelInit :=
  ⟨by decide, by decide, by decide, by decide, by decide⟩

/-- Every panel event preserves the panel invariant. -/
theorem panelInv_step (e : PanelEvent) (s : PanelState) (h : panelInv s) :
    panelInv (panelStep e s) := by
  obtain ⟨hp, hs, ha, hn, ho⟩ := h
  cases e with
  | click =>
    simp only [panelStep]
    split
    · exact ⟨hp, hs, ha, hn, ho⟩
    · next hg =>
      rw [Bool.or_eq_true] at hg
      push_neg at hg
      obtain ⟨hat, hsome⟩ := hg
      have hsucc : s.attestSuccesses = 0 := ho.resolve_left hsome
      have hpend : s.pendingAttests ≠ 1 := fun h1 => hat (ha.mpr h1)
      refine ⟨by simp; omega, by simpa using hs, by simp; omega, ?_, ?_⟩
      · intro hx
        exact absurd hx hsome
      · exact Or.inr (by simpa using hsucc)
  | resolveOk r =>
    simp only [panelStep]
    split
    · next hg =>
      have hnone : s.attestation.isSome ≠ true := fun hx => absurd (hn hx) (by omega)
      have hsucc : s.attestSuccesses = 0 := ho.resolve_left hnone
      refine ⟨by simp; omega, by simp; omega, by simp; omega, by simp; omega, ?_⟩
      · exact Or.inl (by simp)
    · exact ⟨hp, hs, ha, hn, ho⟩
  | resolveFail m =>
    simp only [panelStep]
    split
    · next hg =>
      refine ⟨by simp; omega, by simpa using hs, by simp; omega, ?_, by simpa using ho⟩
      · intro hx
        simp only at hx
        have h0 := hn hx
        simp
        omega
    · exact ⟨hp, hs, ha, hn, ho⟩

/-- The panel invariant holds after every event sequence. -/
theorem panelInv_run (tr : List PanelEvent) : panelInv (runPanel tr) := by
  have h : ∀ (es : List PanelEvent) (s : PanelState), panelInv s →
      panelInv (es.foldl (fun s e => panelStep e s) s) := by
    intro es
    induction es with
    | nil => intro s hs; exact hs
    | cons e es ih => intro s hs; exact ih _ (panelInv_step e s hs)
  exact h tr panelInit panelInv_init

/-- C6.  Attest may be triggered any number of times by explicit clicks, but
at most one `api.attest` call is ever outstanding, at most one successful
attestation is ever stored, and while a call is outstanding or after a
success the attest trigger is disabled: a click is a no-op. -/
theorem c6_attest_at_most_once (tr : List PanelEvent) :
    (runPanel tr).pendingAttests ≤ 1 ∧
    (runPanel tr).attestSuccesses ≤ 1 ∧
    ((runPanel tr).attesting = true ∨ (runPanel tr).attestation.isSome = true →
      panelStep PanelEvent.click (runPanel tr) = runPanel tr) := by
  obtain ⟨hp, hs, _, _, _⟩ := panelInv_run tr
  refine ⟨hp, hs, ?_⟩
  intro h
  have hb : ((runPanel tr).attesting || (runPanel tr).attestation.isSome) = true := by
    rcases h with h | h <;> simp [h]
  simp only [panelStep]
  rw [if_pos hb]

/-- Witness for C6 after a click and a successful attest resolution. -/
theorem c6_attest_at_most_once_witness :
    (runPanel [PanelEvent.click, PanelEvent.resolveOk a1]).attestation.isSome = true ∧
    panelStep PanelEvent.click (runPanel [PanelEvent.click, PanelEvent.resolveOk a1]) =
      runPanel [PanelEvent.click, PanelEvent.resolveOk a1] :=
  ⟨by decide,
    (c6_attest_at_most_once [PanelEvent.click, PanelEvent.resolveOk a1]).2.2
      (Or.inr (by decide))⟩

/-- C7.  If the stream disconnects while the stage is validating (with a job
id set), the poll loop is active immediately afterwards and the re-run of the
poll effect performs one immediate `getStatus` instead of waiting a full
period. -/
theorem c7_fallback_activation (s : AppState) (j : String)
    (h1 : s.stage = AppStage.validating) (h2 : s.jobId = some j)
    (h3 : s.stream.connected = true) :
    pollActive (step Event.streamDisconnect s) = true ∧
    (step Event.streamDisconnect s).pendingPolls = s.pendingPolls + 1 := by
  simp only [step, rawStep, hookJob, pollDeps, pollActive, issuePoll, h1, h2, h3]
  simp

/-- Witness for C7 in a connected validating state. -/
theorem c7_fallback_activation_witness :
    c7s.stage = AppStage.validating ∧ c7s.jobId = some "j1" ∧
    c7s.stream.connected = true ∧
    pollActive (step Event.streamDisconnect c7s) = true ∧
    (step Event.streamDisconnect c7s).pendingPolls = c7s.pendingPolls + 1 :=
  ⟨by decide, by decide, by decide,
    (c7_fallback_activation c7s "j1" (by decide) (by decide) (by decide)).1,
    (c7_fallback_activation c7s "j1" (by decide) (by decide) (by decide)).2⟩

/-- Projections of a full step to the raw event update: the effect re-runs at
the end of a step touch only the stream state and the pending poll counter,
never the stage or the job id. -/
theorem step_stage_jobId (e : Event) (s : AppState) :
    (step e s).stage = (rawStep e s).stage ∧ (step e s).jobId = (rawStep e s).jobId := by
  simp only [step, issuePoll]
  constructor <;> (split <;> split <;> rfl)

/-- While the stage stays `validating` across a step, the job id stays set. -/
theorem step_jobId_isSome (e : Event) (s : AppState)
    (hs : s.stage = AppStage.validating) (hj : s.jobId.isSome = true)
    (h1 : (step e s).stage = s.stage) :
    ((step e s).jobId).isSome = true := by
  obtain ⟨j0, hj0⟩ := Option.isSome_iff_exists.mp hj
  obtain ⟨hps, hpj⟩ := step_stage_jobId e s
  rw [hpj]
  rw [hps] at h1
  cases e with
  | ingestOk p => simp only [rawStep]; split <;> simp [hj]
  | validateOk j => simp only [rawStep]; split <;> simp [hj]
  | validateFail m => simp only [rawStep]; split <;> simp [hj]
  | streamConnect => simp only [rawStep]; split <;> simp [hj]
  | streamDisconnect => simp only [rawStep]; split <;> simp [hj]
  | streamMiner r => simp only [rawStep]; split <;> simp [hj]
  | streamStatus st prog =>
    simp only [rawStep, handleValidationComplete, hj0]
    split <;> (try split) <;> simp [hj, hj0]
  | pollTick => simp only [rawStep, issuePoll]; split <;> simp [hj]
  | pollOk st =>
    simp only [rawStep, handleValidationComplete, hj0]
    split <;> (try split) <;> simp [hj, hj0]
  | pollFail => simp only [rawStep]; split <;> simp [hj]
  | aggOk b cid => simp only [rawStep]; split <;> simp [hj]
  | aggFail m => simp only [rawStep]; split <;> simp [hj]
  | reset => simp [rawStep, hs, initState] at h1

/-- A tick of the installed poll interval issues one `getStatus`. -/
theorem step_pollTick_of_active (t : AppState) (ht : pollActive t = true) :
    step Event.pollTick t = issuePoll t := by
  simp only [step, rawStep, ht, hookJob, pollDeps, issuePoll]
  simp

/-- C8.  A failed poll tick is reported as a transient warning and changes no
other state; it never deactivates the poll loop, and the next tick still
issues a `getStatus`.  Moreover the loop is only ever deactivated by a step
that changes the stage (a stage-controller transition, including reset) or
the stream connectivity — no poll failure qualifies. -/
theorem c8_poll_failure_transient (s : AppState) (e : Event) (hp : 0 < s.pendingPolls) :
    step Event.pollFail s =
      { s with pendingPolls := s.pendingPolls - 1, warnings := s.warnings + 1 } ∧
    pollActive (step Event.pollFail s) = pollActive s ∧
    (pollActive s = true →
      (step Event.pollTick (step Event.pollFail s)).pendingPolls =
        (step Event.pollFail s).pendingPolls + 1) ∧
    (pollActive s = true → pollActive (step e s) = false →
      (step e s).stage ≠ s.stage ∨ (step e s).stream.connected ≠ s.stream.connected) := by
  have hfail : step Event.pollFail s =
      { s with pendingPolls := s.pendingPolls - 1, warnings := s.warnings + 1 } := by
    simp only [step, rawStep, hookJob, pollDeps, pollActive, issuePoll]
    simp [hp]
  refine ⟨hfail, ?_, ?_, ?_⟩
  · rw [hfail]; rfl
  · intro ha
    rw [hfail]
    have ha' : pollActive
        { s with pendingPolls := s.pendingPolls - 1, warnings := s.warnings + 1 } = true := ha
    rw [step_pollTick_of_active _ ha']
    rfl
  · intro ha hf
    simp only [pollActive, Bool.and_eq_true, beq_iff_eq, Bool.not_eq_true'] at ha
    obtain ⟨⟨hs, hj⟩, hc⟩ := ha
    by_cases h1 : (step e s).stage = s.stage
    · by_cases h2 : (step e s).stream.connected = s.stream.connected
      · exfalso
        have hjs := step_jobId_isSome e s hs hj h1
        have hact : pollActive (step e s) = true := by
          simp [pollActive, h1, h2, hs, hc, hjs]
        rw [hact] at hf
        cases hf
      · exact Or.inr h2
    · exact Or.inl h1

/-- Witness for C8 in a validating, disconnected state with one poll in
flight. -/
theorem c8_poll_failure_transient_witness :
    0 < c8s.pendingPolls ∧
    pollActive (step Event.pollFail c8s) = pollActive c8s :=
  ⟨by decide, (c8_poll_failure_transient c8s Event.pollFail (by decide)).2.1⟩

/-- C9.  On aggregate failure the controller moves from `aggregating` back to
`validating` with the error surfaced; the evidence bundle (none is stored) and
every other state field are unchanged; the poll loop is live again, so a
future completion signal retries the aggregate call (one more `api.aggregate`
is issued). -/
theorem c9_aggregate_failure (s : AppState) (j msg : String)
    (h1 : s.stage = AppStage.aggregating) (h2 : 0 < s.pendingAggs)
    (h3 : s.jobId = some j) (h4 : s.stream = initStream) :
    (step (Event.aggFail msg) s).stage = AppStage.validating ∧
    (step (Event.aggFail msg) s).error = some msg ∧
    (step (Event.aggFail msg) s).evidenceBundle = s.evidenceBundle ∧
    (step (Event.aggFail msg) s).ipfsCid = s.ipfsCid ∧
    (step (Event.aggFail msg) s).jobId = s.jobId ∧
    (step (Event.aggFail msg) s).proposal = s.proposal ∧
    (step (Event.aggFail msg) s).polledProgress = s.polledProgress ∧
    (step (Event.aggFail msg) s).polledResponses = s.polledResponses ∧
    (step (Event.aggFail msg) s).stream = s.stream ∧
    (step (Event.aggFail msg) s).aggregateCalls = s.aggregateCalls ∧
    pollActive (step (Event.aggFail msg) s) = true ∧
    (∀ stC : StatusResponse, stC.status = BackendStatus.completed →
      (step (Event.pollOk stC) (step (Event.aggFail msg) s)).aggregateCalls =
        s.aggregateCalls + 1) := by
  have hstep : step (Event.aggFail msg) s =
      { s with pendingAggs := s.pendingAggs - 1, error := some msg,
               stage := AppStage.validating, stream := initStream,
               pendingPolls := s.pendingPolls + 1 } := by
    simp only [step, rawStep, hookJob, pollDeps, pollActive, issuePoll, h1, h2, h3, h4]
    simp [h2, initStream]
  rw [hstep]
  refine ⟨rfl, rfl, rfl, rfl, rfl, rfl, rfl, rfl, h4.symm, rfl, ?_, ?_⟩
  · simp [pollActive, h3, initStream]
  · intro stC hC
    simp only [step, rawStep, hookJob, pollDeps, pollActive, issuePoll,
      handleValidationComplete, h3, hC]
    simp

/-- Witness for C9 in an aggregating state with one aggregate call in
flight. -/
theorem c9_aggregate_failure_witness :
    c9s.stage = AppStage.aggregating ∧ 0 < c9s.pendingAggs ∧
    (step (Event.aggFail "em") c9s).stage = AppStage.validating ∧
    (step (Event.aggFail "em") c9s).error = some "em" ∧
    (step (Event.aggFail "em") c9s).evidenceBundle = c9s.evidenceBundle :=
  ⟨by decide, by decide,
    (c9_aggregate_failure c9s "j1" "em" (by decide) (by decide) (by decide) (by decide)).1,
    (c9_aggregate_failure c9s "j1" "em" (by decide) (by decide) (by decide) (by decide)).2.1,
    (c9_aggregate_failure c9s "j1" "em" (by decide) (by decide) (by decide) (by decide)).2.2.1⟩

/-- A key absent from an association list looks up to nothing. -/
theorem lookupS_none_of_any_false {α : Type} (acc : List (String × α)) (k : String)
    (h : acc.any (fun e => e.1 = k) = false) : lookupS acc k = none := by
  induction acc with
  | nil => rfl
  | cons e es ih =>
    simp only [List.any_cons, Bool.or_eq_false_iff, decide_eq_false_iff_not] at h
    obtain ⟨h1, h2⟩ := h
    simp only [lookupS]
    rw [if_neg h1]
    apply ih
    simp only [List.any_eq_false, decide_eq_true_eq] at h2 ⊢
    exact h2

/-- A key present in an association list looks up to something. -/
theorem lookupS_isSome_of_any {α : Type} (acc : List (String × α)) (k : String)
    (h : acc.any (fun e => e.1 = k) = true) : (lookupS acc k).isSome = true := by
  induction acc with
  | nil => simp at h
  | cons e es ih =>
    simp only [List.any_cons, Bool.or_eq_true, decide_eq_true_eq] at h
    simp only [lookupS]
    by_cases hk : e.1 = k
    · rw [if_pos hk]; rfl
    · rw [if_neg hk]
      apply ih
      rcases h with h | h
      · exact absurd h hk
      · exact h

/-- Looking up after pushing `x` onto every bucket keyed `x.claim_id`. -/
theorem lookupS_map_push (acc : List (String × List MinerResponse)) (x : MinerResponse)
    (c : String) :
    lookupS (acc.map (fun e => if e.1 = x.claim_id then (e.1, e.2 ++ [x]) else e)) c =
      (lookupS acc c).map (fun l => if c = x.claim_id then l ++ [x] else l) := by
  induction acc with
  | nil => rfl
  | cons e es ih =>
    simp only [List.map_cons]
    by_cases he : e.1 = x.claim_id
    · rw [if_pos he]
      simp only [lookupS]
      by_cases hc : e.1 = c
      · rw [if_pos hc, if_pos hc]
        have hcx : c = x.claim_id := hc.symm.trans he
        simp [hcx]
      · rw [if_neg hc, if_neg hc]
        exact ih
    · rw [if_neg he]
      simp only [lookupS]
      by_cases hc : e.1 = c
      · rw [if_pos hc, if_pos hc]
        have hcx : ¬ c = x.claim_id := fun h => he (hc.trans h)
        simp [hcx]
      · rw [if_neg hc, if_neg hc]
        exact ih

/-- Looking up in a list extended by one trailing entry. -/
theorem lookupS_append_one {α : Type} (acc : List (String × α)) (k : String) (v : α)
    (c : String) :
    lookupS (acc ++ [(k, v)]) c =
      match lookupS acc c with
      | some l => some l
      | none => if k = c then some v else none := by
  induction acc with
  | nil => rfl
  | cons e es ih =>
    simp only [List.cons_append, lookupS]
    by_cases hc : e.1 = c
    · rw [if_pos hc, if_pos hc]
    · rw [if_neg hc, if_neg hc]
      exact ih

/-- One grouping step appends `x` to the bucket of its claim id and leaves
every other bucket alone. -/
theorem lookupS_upsertGroup (acc : List (String × List MinerResponse)) (x : MinerResponse)
    (c : String) :
    lookupS (upsertGroup acc x) c =
      if c = x.claim_id then some (((lookupS acc c).getD []) ++ [x])
      else lookupS acc c := by
  unfold upsertGroup
  by_cases hany : acc.any (fun e => e.1 = x.claim_id) = true
  · rw [if_pos hany, lookupS_map_push]
    by_cases hc : c = x.claim_id
    · rw [if_pos hc]
      have hsome := lookupS_isSome_of_any acc x.claim_id hany
      rw [← hc] at hsome
      obtain ⟨l, hl⟩ := Option.isSome_iff_exists.mp hsome
      rw [hl]
      simp [hc]
    · rw [if_neg hc]
      cases lookupS acc c with
      | none => rfl
      | some l => simp [hc]
  · have hany' : acc.any (fun e => e.1 = x.claim_id) = false := by
      simp only [Bool.not_eq_true] at hany
      exact hany
    rw [if_neg hany, lookupS_append_one]
    by_cases hc : c = x.claim_id
    · rw [if_pos hc]
      have hnone : lookupS acc c = none := by
        rw [hc]
        exact lookupS_none_of_any_false acc x.claim_id hany'
      rw [hnone]
      simp [hc.symm]
    · rw [if_neg hc]
      cases hl : lookupS acc c with
      | none =>
        have hkc : ¬x.claim_id = c := fun h => hc h.symm
        simp [hkc]
      | some l => simp

/-- Grouping more responses never loses an entry already in a bucket. -/
theorem lookupS_foldl_mem (rs : List MinerResponse) (acc : List (String × List MinerResponse))
    (r : MinerResponse) (h : ∃ l, lookupS acc r.claim_id = some l ∧ r ∈ l) :
    ∃ l, lookupS (rs.foldl upsertGroup acc) r.claim_id = some l ∧ r ∈ l := by
  induction rs generalizing acc with
  | nil => exact h
  | cons x xs ih =>
    apply ih
    obtain ⟨l, hl, hr⟩ := h
    rw [lookupS_upsertGroup]
    by_cases hc : r.claim_id = x.claim_id
    · rw [if_pos hc, hl]
      exact ⟨l ++ [x], rfl, List.mem_append_left _ hr⟩
    · rw [if_neg hc]
      exact ⟨l, hl, hr⟩

/-- Every response of the polled snapshot lands in the bucket of its claim id
in the grouped view. -/
theorem mem_groupByClaim (rs : List MinerResponse) (r : MinerResponse) (h : r ∈ rs) :
    ∃ l, lookupS (groupByClaim rs) r.claim_id = some l ∧ r ∈ l := by
  have haux : ∀ (ts : List MinerResponse) (acc : List (String × List MinerResponse)),
      r ∈ ts → ∃ l, lookupS (ts.foldl upsertGroup acc) r.claim_id = some l ∧ r ∈ l := by
    intro ts
    induction ts with
    | nil => intro acc hmem; cases hmem
    | cons x xs ih =>
      intro acc hmem
      rw [List.foldl_cons]
      rcases List.mem_cons.mp hmem with hx | hx
      · subst hx
        apply lookupS_foldl_mem
        rw [lookupS_upsertGroup, if_pos rfl]
        exact ⟨_, rfl, List.mem_append_right _ (List.mem_singleton_self r)⟩
      · exact ih (upsertGroup acc x) hx
  exact haux rs [] h

/-- C3 amended.  Per-claim response data is taken from the channel that
currently holds status authority, not merged across channels: while the stream
is connected the view is exactly the stream's response map, and while it is
not, every response of the latest poll snapshot appears in the view under its
claim id.  (The claim as frozen — a response delivered by exactly one channel
always appears — is refuted by `c3_poll_only_response_missing`.) -/
theorem c3_amended_channel_authority (s : AppState) (r : MinerResponse) :
    (s.stream.connected = true → minerResponsesView s = s.stream.minerResponses) ∧
    (s.stream.connected = false → r ∈ s.polledResponses →
      ∃ l, lookupS (minerResponsesView s) r.claim_id = some l ∧ r ∈ l) := by
  constructor
  · intro hc
    simp [minerResponsesView, hc]
  · intro hc hr
    simp only [minerResponsesView, hc, Bool.false_eq_true, if_false]
    exact mem_groupByClaim s.polledResponses r hr

/-- Witness for the amended C3 at a concrete reachable disconnected state. -/
theorem c3_amended_witness :
    (runTrace [Event.ingestOk p1, Event.validateOk "j1", Event.pollOk stRun]).stream.connected
        = false ∧
    r1 ∈ (runTrace [Event.ingestOk p1, Event.validateOk "j1", Event.pollOk stRun]).polledResponses ∧
    (∃ l, lookupS (minerResponsesView
        (runTrace [Event.ingestOk p1, Event.validateOk "j1", Event.pollOk stRun])) "c1" =
          some l ∧ r1 ∈ l) :=
  ⟨by decide, by decide,
    (c3_amended_channel_authority
      (runTrace [Event.ingestOk p1, Event.validateOk "j1", Event.pollOk stRun]) r1).2
      (by decide) (by decide)⟩

/-- The keyed per-miner insert is idempotent. -/
theorem insertResp_idem (l : List MinerResponse) (r : MinerResponse) :
    insertResp (insertResp l r) r = insertResp l r := by
  unfold insertResp
  by_cases hany : l.any (fun x => x.miner_id = r.miner_id) = true
  · rw [if_pos hany]
    have hany2 : ((l.map (fun x => if x.miner_id = r.miner_id then r else x)).any
        (fun x => x.miner_id = r.miner_id)) = true := by
      simp only [List.any_eq_true, decide_eq_true_eq] at hany ⊢
      obtain ⟨x, hx, hm⟩ := hany
      exact ⟨r, List.mem_map.mpr ⟨x, hx, by rw [if_pos hm]⟩, rfl⟩
    rw [if_pos hany2, List.map_map]
    apply List.map_congr_left
    intro a _
    by_cases ha : a.miner_id = r.miner_id
    · simp [ha]
    · simp [ha]
  · rw [if_neg hany]
    have hany2 : ((l ++ [r]).any (fun x => x.miner_id = r.miner_id)) = true := by
      simp
    rw [if_pos hany2, List.map_append]
    have hno : ∀ x ∈ l, ¬(x.miner_id = r.miner_id) := by
      intro x hx
      simp only [Bool.not_eq_true, List.any_eq_false, decide_eq_true_eq] at hany
      exact hany x hx
    have hl : l.map (fun x => if x.miner_id = r.miner_id then r else x) = l := by
      have := List.map_congr_left (l := l)
        (f := fun x => if x.miner_id = r.miner_id then r else x) (g := fun x => x)
        (fun a ha => by simp [hno a ha])
      rw [this, List.map_id']
    rw [hl]
    simp

/-- The keyed per-claim stream insert is idempotent. -/
theorem insertStream_idem (m : List (String × List MinerResponse)) (r : MinerResponse) :
    insertStream (insertStream m r) r = insertStream m r := by
  unfold insertStream
  by_cases hany : m.any (fun e => e.1 = r.claim_id) = true
  · rw [if_pos hany]
    have hany2 : ((m.map (fun e => if e.1 = r.claim_id then (e.1, insertResp e.2 r) else e)).any
        (fun e => e.1 = r.claim_id)) = true := by
      simp only [List.any_eq_true, decide_eq_true_eq] at hany ⊢
      obtain ⟨e, he, hm⟩ := hany
      exact ⟨(e.1, insertResp e.2 r), List.mem_map.mpr ⟨e, he, by rw [if_pos hm]⟩, hm⟩
    rw [if_pos hany2, List.map_map]
    apply List.map_congr_left
    intro e _
    by_cases he : e.1 = r.claim_id
    · simp [he, insertResp_idem]
    · simp [he]
  · rw [if_neg hany]
    have hany2 : ((m ++ [(r.claim_id, [r])]).any (fun e => e.1 = r.claim_id)) = true := by
      simp
    rw [if_pos hany2, List.map_append]
    have hno : ∀ e ∈ m, ¬(e.1 = r.claim_id) := by
      intro e he
      simp only [Bool.not_eq_true, List.any_eq_false, decide_eq_true_eq] at hany
      exact hany e he
    have hl : m.map (fun e => if e.1 = r.claim_id then (e.1, insertResp e.2 r) else e) = m := by
      have := List.map_congr_left (l := m)
        (f := fun e => if e.1 = r.claim_id then (e.1, insertResp e.2 r) else e)
        (g := fun e => e)
        (fun a ha => by simp [hno a ha])
      rw [this, List.map_id']
    rw [hl]
    simp [insertResp]

/-- No entry for a miner absent from a response list. -/
theorem countMiner_eq_zero_of_any_false (l : List MinerResponse) (m : String)
    (h : l.any (fun y => y.miner_id = m) = false) : countMiner l m = 0 := by
  induction l with
  | nil => rfl
  | cons x xs ih =>
    simp only [List.any_cons, Bool.or_eq_false_iff, decide_eq_false_iff_not] at h
    obtain ⟨h1, h2⟩ := h
    simp only [countMiner, List.filter_cons]
    rw [if_neg (by simpa using h1)]
    apply ih
    simp only [List.any_eq_false, decide_eq_true_eq] at h2 ⊢
    exact h2

/-- At least one entry for a miner present in a response list. -/
theorem countMiner_pos_of_any (l : List MinerResponse) (m : String)
    (h : l.any (fun y => y.miner_id = m) = true) : 0 < countMiner l m := by
  induction l with
  | nil => simp at h
  | cons x xs ih =>
    simp only [List.any_cons, Bool.or_eq_true, decide_eq_true_eq] at h
    simp only [countMiner, List.filter_cons]
    by_cases hx : x.miner_id = m
    · rw [if_pos (by simpa using hx)]
      simp
    · rw [if_neg (by simpa using hx)]
      have h2 : xs.any (fun y => y.miner_id = m) = true := by
        rcases h with h | h
        · exact absurd h hx
        · exact h
      exact ih h2

/-- A per-miner-deduplicated response list holds at most one entry per miner. -/
theorem countMiner_le_one (l : List MinerResponse) (m : String)
    (hn : minersNodup l = true) : countMiner l m ≤ 1 := by
  induction l with
  | nil => simp [countMiner]
  | cons x xs ih =>
    simp only [minersNodup, Bool.and_eq_true, Bool.not_eq_true'] at hn
    obtain ⟨h1, h2⟩ := hn
    simp only [countMiner, List.filter_cons]
    by_cases hx : x.miner_id = m
    · rw [if_pos (by simpa using hx)]
      have hzero : countMiner xs m = 0 := by
        apply countMiner_eq_zero_of_any_false
        rw [← hx]
        exact h1
      simp only [List.length_cons]
      have : (xs.filter (fun y => decide (y.miner_id = m))).length = countMiner xs m := rfl
      omega
    · rw [if_neg (by simpa using hx)]
      exact ih h2

/-- Replacing a miner entry in place preserves its entry count. -/
theorem countMiner_map_replace (l : List MinerResponse) (r : MinerResponse) :
    countMiner (l.map (fun x => if x.miner_id = r.miner_id then r else x)) r.miner_id =
      countMiner l r.miner_id := by
  induction l with
  | nil => rfl
  | cons x xs ih =>
    simp only [List.map_cons, countMiner, List.filter_cons]
    by_cases hx : x.miner_id = r.miner_id
    · rw [if_pos hx]
      rw [if_pos (by simp), if_pos (by simpa using hx)]
      simpa [countMiner] using ih
    · rw [if_neg hx]
      rw [if_neg (by simpa using hx), if_neg (by simpa using hx)]
      exact ih

/-- Entry counts add over list concatenation. -/
theorem countMiner_append (a b : List MinerResponse) (m : String) :
    countMiner (a ++ b) m = countMiner a m + countMiner b m := by
  simp [countMiner, List.filter_append]

/-- After a keyed insert the inserted miner has exactly one entry. -/
theorem countMiner_insertResp (l : List MinerResponse) (r : MinerResponse)
    (hn : minersNodup l = true) :
    countMiner (insertResp l r) r.miner_id = 1 := by
  unfold insertResp
  by_cases hany : l.any (fun x => x.miner_id = r.miner_id) = true
  · rw [if_pos hany, countMiner_map_replace]
    have h1 := countMiner_le_one l r.miner_id hn
    have h2 := countMiner_pos_of_any l r.miner_id hany
    omega
  · rw [if_neg hany, countMiner_append]
    have h0 : countMiner l r.miner_id = 0 := by
      apply countMiner_eq_zero_of_any_false
      simpa using hany
    have h1 : countMiner [r] r.miner_id = 1 := by
      simp [countMiner]
    omega

/-- Unfolding the per-claim entry count over a leading bucket. -/
theorem dupCount_cons (e : String × List MinerResponse)
    (es : List (String × List MinerResponse)) (c m : String) :
    dupCount (e :: es) c m =
      (if e.1 = c then countMiner e.2 m else 0) + dupCount es c m := by
  simp [dupCount]

/-- Per-claim entry counts add over map concatenation. -/
theorem dupCount_append (a b : List (String × List MinerResponse)) (c m : String) :
    dupCount (a ++ b) c m = dupCount a c m + dupCount b c m := by
  simp [dupCount]

/-- No entries under a claim key absent from the map. -/
theorem dupCount_zero_of_any_false (v : List (String × List MinerResponse)) (c m : String)
    (h : v.any (fun e => e.1 = c) = false) : dupCount v c m = 0 := by
  induction v with
  | nil => rfl
  | cons e es ih =>
    simp only [List.any_cons, Bool.or_eq_false_iff, decide_eq_false_iff_not] at h
    obtain ⟨h1, h2⟩ := h
    rw [dupCount_cons, if_neg h1]
    have h2' : es.any (fun e => e.1 = c) = false := by
      simp only [List.any_eq_false, decide_eq_true_eq] at h2 ⊢
      exact h2
    simp [ih h2']

/-- The keyed insert leaves the entry count of other claims at zero. -/
theorem dupCount_map_insert_zero (es : List (String × List MinerResponse))
    (r : MinerResponse) (c m : String) (h : es.any (fun e => e.1 = c) = false) :
    dupCount (es.map (fun e => if e.1 = r.claim_id then (e.1, insertResp e.2 r) else e))
      c m = 0 := by
  induction es with
  | nil => rfl
  | cons e es ih =>
    simp only [List.any_cons, Bool.or_eq_false_iff, decide_eq_false_iff_not] at h
    obtain ⟨h1, h2⟩ := h
    have h2' : es.any (fun e => e.1 = c) = false := by
      simp only [List.any_eq_false, decide_eq_true_eq] at h2 ⊢
      exact h2
    simp only [List.map_cons]
    by_cases he : e.1 = r.claim_id
    · rw [if_pos he, dupCount_cons]
      rw [if_neg h1]
      simp [ih h2']
    · rw [if_neg he, dupCount_cons, if_neg h1]
      simp [ih h2']

/-- Inserting into an existing bucket leaves exactly one entry for the
inserted (claim, miner) pair. -/
theorem dupCount_map_insert (mp : List (String × List MinerResponse)) (r : MinerResponse)
    (hkeys : keysNodup mp = true) (hall : mp.all (fun e => minersNodup e.2) = true)
    (hany : mp.any (fun e => e.1 = r.claim_id) = true) :
    dupCount (mp.map (fun e => if e.1 = r.claim_id then (e.1, insertResp e.2 r) else e))
      r.claim_id r.miner_id = 1 := by
  induction mp with
  | nil => simp at hany
  | cons e es ih =>
    simp only [keysNodup, Bool.and_eq_true, Bool.not_eq_true'] at hkeys
    obtain ⟨hk1, hk2⟩ := hkeys
    simp only [List.all_cons, Bool.and_eq_true] at hall
    obtain ⟨ha1, ha2⟩ := hall
    simp only [List.map_cons]
    by_cases he : e.1 = r.claim_id
    · rw [if_pos he, dupCount_cons]
      have hcnt : countMiner (insertResp e.2 r) r.miner_id = 1 :=
        countMiner_insertResp e.2 r ha1
      have hz : dupCount (es.map
          (fun e => if e.1 = r.claim_id then (e.1, insertResp e.2 r) else e))
            r.claim_id r.miner_id = 0 := by
        apply dupCount_map_insert_zero
        rw [← he]
        exact hk1
      simp [he, hcnt, hz]
    · rw [if_neg he, dupCount_cons, if_neg he]
      have hany2 : es.any (fun e => e.1 = r.claim_id) = true := by
        simp only [List.any_cons, Bool.or_eq_true, decide_eq_true_eq] at hany
        rcases hany with h | h
        · exact absurd h he
        · exact h
      simp [ih hk2 ha2 hany2]

/-- After a keyed stream insert the inserted (claim, miner) pair has exactly
one entry across the whole map. -/
theorem dupCount_insertStream (mp : List (String × List MinerResponse)) (r : MinerResponse)
    (hwf : streamWF mp = true) :
    dupCount (insertStream mp r) r.claim_id r.miner_id = 1 := by
  simp only [streamWF, Bool.and_eq_true] at hwf
  obtain ⟨hkeys, hall⟩ := hwf
  unfold insertStream
  by_cases hany : mp.any (fun e => e.1 = r.claim_id) = true
  · rw [if_pos hany]
    exact dupCount_map_insert mp r hkeys hall hany
  · rw [if_neg hany]
    rw [dupCount_append]
    have h0 : dupCount mp r.claim_id r.miner_id = 0 := by
      apply dupCount_zero_of_any_false
      simp only [Bool.not_eq_true] at hany
      exact hany
    have h1 : dupCount [(r.claim_id, [r])] r.claim_id r.miner_id = 1 := by
      simp [dupCount, countMiner]
    omega

/-- A stream `miner_response` message while connected and validating only
updates the stream response map. -/
theorem step_streamMiner_eq (s : AppState) (r : MinerResponse)
    (hs : s.stage = AppStage.validating) (hj : s.jobId.isSome = true)
    (hc : s.stream.connected = true) :
    step (Event.streamMiner r) s =
      { s with stream :=
          { s.stream with minerResponses := insertStream s.stream.minerResponses r } } := by
  simp only [step, rawStep, hookJob, pollDeps, pollActive, issuePoll, hs, hc]
  simp [hj]

/-- A resolving `getStatus` with a running status only stores the snapshot. -/
theorem step_pollOk_running_eq (s : AppState) (snap : StatusResponse)
    (hp : 0 < s.pendingPolls) (hrun : snap.status = BackendStatus.running) :
    step (Event.pollOk snap) s =
      { s with pendingPolls := s.pendingPolls - 1,
               polledProgress := some snap.progress,
               polledResponses := snap.partial_results } := by
  simp only [step, rawStep, hookJob, pollDeps, pollActive, issuePoll, hrun, hp]
  simp

/-- C2.  The merge is idempotent under the key (claim_id, miner_id): with the
stream connected during validation and the same response `r` carried by both
channels (`r` a stream message and `r` inside the poll snapshot), delivering
on the same channel twice is a no-op (exact state equality for the stream,
identical reconciled view for the poll), the two channels' deliveries commute
as state updates, the view after both deliveries is identical to feeding the
response once on the channel that holds data authority, and the view holds
exactly one entry for that miner under that claim — no duplicate. -/
theorem c2_idempotent_merge (s : AppState) (r : MinerResponse) (snap : StatusResponse)
    (hs : s.stage = AppStage.validating) (hj : s.jobId.isSome = true)
    (hc : s.stream.connected = true) (hp : 2 ≤ s.pendingPolls)
    (_hr : r ∈ snap.partial_results) (hrun : snap.status = BackendStatus.running)
    (hwf : streamWF s.stream.minerResponses = true) :
    step (Event.streamMiner r) (step (Event.streamMiner r) s) = step (Event.streamMiner r) s ∧
    reconciledView (step (Event.pollOk snap) (step (Event.pollOk snap) s)) =
      reconciledView (step (Event.pollOk snap) s) ∧
    step (Event.pollOk snap) (step (Event.streamMiner r) s) =
      step (Event.streamMiner r) (step (Event.pollOk snap) s) ∧
    reconciledView (step (Event.pollOk snap) (step (Event.streamMiner r) s)) =
      reconciledView (step (Event.streamMiner r) s) ∧
    dupCount (minerResponsesView (step (Event.pollOk snap) (step (Event.streamMiner r) s)))
      r.claim_id r.miner_id = 1 := by
  have hp0 : 0 < s.pendingPolls := by omega
  have hp1 : 0 < s.pendingPolls - 1 := by omega
  have hd1 := step_streamMiner_eq s r hs hj hc
  have hd2 := step_pollOk_running_eq s snap hp0 hrun
  have e1 : step (Event.streamMiner r) (step (Event.streamMiner r) s) =
      { s with stream := { s.stream with
          minerResponses := insertStream (insertStream s.stream.minerResponses r) r } } := by
    rw [hd1]
    exact step_streamMiner_eq _ r hs hj hc
  have e2 : step (Event.pollOk snap) (step (Event.pollOk snap) s) =
      { s with pendingPolls := s.pendingPolls - 1 - 1,
               polledProgress := some snap.progress,
               polledResponses := snap.partial_results } := by
    rw [hd2]
    exact step_pollOk_running_eq _ snap hp1 hrun
  have e3a : step (Event.pollOk snap) (step (Event.streamMiner r) s) =
      { s with stream := { s.stream with
            minerResponses := insertStream s.stream.minerResponses r },
               pendingPolls := s.pendingPolls - 1,
               polledProgress := some snap.progress,
               polledResponses := snap.partial_results } := by
    rw [hd1]
    exact step_pollOk_running_eq _ snap hp0 hrun
  have e3b : step (Event.streamMiner r) (step (Event.pollOk snap) s) =
      { s with stream := { s.stream with
            minerResponses := insertStream s.stream.minerResponses r },
               pendingPolls := s.pendingPolls - 1,
               polledProgress := some snap.progress,
               polledResponses := snap.partial_results } := by
    rw [hd2]
    exact step_streamMiner_eq _ r hs hj hc
  refine ⟨?_, ?_, ?_, ?_, ?_⟩
  · rw [e1, hd1, insertStream_idem]
  · rw [e2, hd2]
    rfl
  · rw [e3a, e3b]
  · rw [e3a, hd1]
    simp [reconciledView, minerResponsesView, getClaimStatuses, hc]
  · rw [e3a]
    simp only [minerResponsesView]
    simp [hc]
    exact dupCount_insertStream s.stream.minerResponses r hwf

/-- Witness for C2 at a concrete connected validating state with two polls in
flight. -/
theorem c2_idempotent_merge_witness :
    2 ≤ c2s.pendingPolls ∧ r1 ∈ stRun.partial_results ∧
    step (Event.streamMiner r1) (step (Event.streamMiner r1) c2s) =
      step (Event.streamMiner r1) c2s ∧
    dupCount (minerResponsesView
      (step (Event.pollOk stRun) (step (Event.streamMiner r1) c2s))) "c1" "m1" = 1 :=
  ⟨by decide, by decide,
    (c2_idempotent_merge c2s r1 stRun (by decide) (by decide) (by decide) (by decide)
      (by decide) (by decide) (by decide)).1,
    (c2_idempotent_merge c2s r1 stRun (by decide) (by decide) (by decide) (by decide)
      (by decide) (by decide) (by decide)).2.2.2.2⟩

end Xea
